import Mathlib

/-!
Shallow embedding of the Qdb debugger core (`qiling/debugger/qdb/qdb.py`).

The embedding models the `QlQdb` class state and its operations:
breakpoint table (`bp_list`, a Python dict keyed by address), the
snapshot stack (`_states_list`), the breakpoint-hit handler
(`_bp_handler`), stepping (`do_step`), reverse stepping (`do_backward`),
the internal run primitive (`_run` / `emu_start`), and breakpoint
placement/removal (`set_breakpoint` / `del_breakpoint`).

The emulation engine (Qiling) is an external collaborator: it is modelled
as a record of abstract operations (`Emu`).  The step resolver
(`handle_bnj`), the thumb-mode predicate (`is_thumb`) and the
`Breakpoint`/`TempBreakpoint` classes live in `qdb/utils.py`, which is not
part of the analysed source tree; they are modelled from the spec where
noted.
-/

/-- Architecture identifiers used by `qdb.py` (`QL_ARCH`); only the ones the
debugger logic inspects are distinguished, everything else is `OTHER`. -/
inductive QLArch where
  | ARM
  | ARM_THUMB
  | MIPS
  | OTHER
deriving DecidableEq, Repr

/-- Result of the step resolver `handle_bnj`: either the address of the next
stop or the `CODE_END` sentinel (end of mapped code). -/
inductive StepResult where
  | codeEnd
  | next (a : Nat)
deriving DecidableEq, Repr

/-- Operator-visible notifications printed by the debugger core (breakpoint
hits, the reverse-step messages, the continue banner). Context display
(`do_context`) is presentation-layer and not tracked. -/
inductive Notice where
  | hitBreakpoint (addr : Nat)
  | noHistory
  | stepBackward
  | continuedFrom (addr : Nat)
deriving DecidableEq, Repr

/-- Emulated machine state as seen through the Qiling instance: the program
counter (`ql.reg.arch_pc`), the mode register (`ql.reg.cpsr`) and an opaque
remainder (registers + memory) abstracted as a number. `ql.save()` captures
the whole record, `ql.restore` overwrites it. -/
structure Machine where
  pc : Nat
  cpsr : Nat
  mem : Nat
deriving DecidableEq, Repr

/-- Modelled from the spec: the `Breakpoint` / `TempBreakpoint` classes of
`qdb/utils.py` (not under the analysed sources). Per spec §3 a breakpoint
carries its address, its kind (Persistent vs OneShot, here `isTemp`), a
`hit` flag (`hitted` in the source) and an opaque engine hook handle. -/
structure Breakpoint where
  addr : Nat
  isTemp : Bool
  hitted : Bool
  hook : Nat
deriving DecidableEq, Repr

/-- The emulation engine as an abstract collaborator: single-instruction
execution, free run (`emu_start` with `count = 0`, until hook or exit), the
step resolver `handle_bnj` (modelled from the spec: given the machine it
reports the next stop or `CODE_END`), the thumb-mode predicate `is_thumb`
on `cpsr` (modelled from the spec: whether the active mode requires the
address tag bit), the architecture identifier `ql.archtype`, and the
register-dump used for display diffs. -/
structure Emu where
  archtype : QLArch
  execOne : Machine → Machine
  runFree : Machine → Machine
  resolver : Machine → StepResult
  isThumb : Nat → Bool
  regDump : Machine → Nat

/-- Python dict lookup `d.get(k, None)` on an association list. -/
def dictGet (l : List (Nat × Breakpoint)) (k : Nat) : Option Breakpoint :=
  (l.find? (fun p => p.1 = k)).map (fun p => p.2)

/-- Python dict write `d.update({k: v})`: replaces the entry if the key is
present, otherwise appends it. -/
def dictUpdate (l : List (Nat × Breakpoint)) (k : Nat) (v : Breakpoint) :
    List (Nat × Breakpoint) :=
  if l.any (fun p => p.1 = k) then
    l.map (fun p => if p.1 = k then (k, v) else p)
  else
    l ++ [(k, v)]

/-- Python dict removal `d.pop(k, None)` (the list part): drops the entry
keyed by `k`. -/
def dictRemove (l : List (Nat × Breakpoint)) (k : Nat) :
    List (Nat × Breakpoint) :=
  l.filter (fun p => p.1 ≠ k)

/-- Number of entries keyed by `k` (for the at-most-one-per-address
invariant of the table). -/
def countKey (l : List (Nat × Breakpoint)) (k : Nat) : Nat :=
  (l.filter (fun p => p.1 = k)).length

/-- The mutable state of a `QlQdb` session: the breakpoint dict `bp_list`,
the record/replay flag `rr`, the snapshot stack `_states_list` (head of the
list is the Python list tail, i.e. the most recent snapshot), the machine
reached through `self.ql`, the saved register dump `_saved_reg_dump`, and
instrumentation counters: `run_calls` counts `ql.emu_start` invocations,
`hook_removals` counts `bp.hook.remove()` invocations, `next_hook` issues
fresh hook handles for `ql.hook_address`, and `notices` records the
operator-visible notifications in order. -/
structure QdbState where
  bp_list : List (Nat × Breakpoint)
  rr : Bool
  states_list : List Machine
  machine : Machine
  saved_reg_dump : Option Nat
  run_calls : Nat
  hook_removals : Nat
  next_hook : Nat
  notices : List Notice
deriving DecidableEq, Repr

/-- `ql.emu_start(address, 0, count=count)`: begin executing at `address`;
`count = 0` runs freely until a hook fires or the program exits, `count > 0`
executes exactly `count` instructions. -/
def emu_start (e : Emu) (m : Machine) (address : Nat) (count : Nat) : Machine :=
  let m0 : Machine := { m with pc := address }
  if count = 0 then e.runFree m0 else e.execOne^[count] m0

/-- The effective start address computed by `_run` (qdb.py lines 96-100):
`0` (falsy) is replaced by the current pc, and on ARM/ARM_THUMB with thumb
mode active the low bit is set (`address |= 1`). -/
def run_address (e : Emu) (s : QdbState) (address : Nat) : Nat :=
  let address := if address = 0 then s.machine.pc else address
  if (e.archtype = QLArch.ARM ∨ e.archtype = QLArch.ARM_THUMB)
      ∧ e.isThumb s.machine.cpsr then
    address ||| 1
  else
    address

/-- `QlQdb._run(address=0, count=0)` (qdb.py lines 91-102). -/
def _run (e : Emu) (s : QdbState) (address : Nat) (count : Nat) : QdbState :=
  { s with
    machine := emu_start e s.machine (run_address e s address) count
    run_calls := s.run_calls + 1 }

/-- `QlQdb.do_run` / `QlQdb.run`: `self._run()` with default arguments. -/
def do_run (e : Emu) (s : QdbState) : QdbState :=
  _run e s 0 0

/-- `QlQdb.do_continue(address="")` (qdb.py lines 246-255): `none` stands
for the empty argument string (falsy, like the parsed integer `0`). -/
def do_continue (e : Emu) (s : QdbState) (address : Option Nat) : QdbState :=
  let s1 : QdbState :=
    { s with notices := s.notices ++ [Notice.continuedFrom s.machine.pc] }
  _run e s1 (address.getD 0) 0

/-- `QlQdb.del_breakpoint(bp)` (qdb.py lines 214-220): pop the table entry;
only when one was present is the engine hook released. -/
def del_breakpoint (s : QdbState) (bp : Breakpoint) : QdbState :=
  { s with
    bp_list := dictRemove s.bp_list bp.addr
    hook_removals :=
      if (dictGet s.bp_list bp.addr).isSome then s.hook_removals + 1
      else s.hook_removals }

/-- `QlQdb.set_breakpoint(address, is_temp)` (qdb.py lines 203-212):
construct the breakpoint, install a hook (fresh handle), insert keyed by
address. -/
def set_breakpoint (s : QdbState) (address : Nat) (is_temp : Bool) : QdbState :=
  let bp : Breakpoint :=
    { addr := address, isTemp := is_temp, hitted := false, hook := s.next_hook }
  { s with
    next_hook := s.next_hook + 1
    bp_list := dictUpdate s.bp_list address bp }

/-- `QlQdb._bp_handler` (qdb.py lines 57-75): look up the breakpoint at the
current address; a `TempBreakpoint` is deleted on hit; a persistent one
already `hitted` is a no-op; otherwise the hit is announced and the flag
set. -/
def _bp_handler (s : QdbState) : QdbState :=
  match dictGet s.bp_list s.machine.pc with
  | none => s
  | some bp =>
    if bp.isTemp then
      del_breakpoint s bp
    else if bp.hitted then
      s
    else
      { s with
        notices := s.notices ++ [Notice.hitBreakpoint s.machine.pc]
        bp_list := dictUpdate s.bp_list s.machine.pc { bp with hitted := true } }

/-- `QlQdb.do_backward` (qdb.py lines 163-174): with no record/replay or an
empty snapshot stack, print the no-history notice; otherwise pop the most
recent snapshot (Python `list.pop()`, modelled as the list head) and
restore it (`QlQdb._restore`). -/
def do_backward (s : QdbState) : QdbState :=
  if s.rr = false ∨ s.states_list = [] then
    { s with notices := s.notices ++ [Notice.noHistory] }
  else
    match s.states_list with
    | [] => s
    | top :: rest =>
      { s with
        notices := s.notices ++ [Notice.stepBackward]
        states_list := rest
        machine := top }

/-- `QlQdb.do_step` (qdb.py lines 176-201): save the register dump, resolve
the next stop; on `CODE_END` return `true` (stop the command loop) without
running; otherwise push a snapshot when `rr` (`QlQdb._save`), pick the
instruction count (2 on MIPS when the next stop is not sequential, for the
delay slot), and run. Returns the loop-stop flag with the new state. -/
def do_step (e : Emu) (s : QdbState) : Bool × QdbState :=
  let s0 : QdbState := { s with saved_reg_dump := some (e.regDump s.machine) }
  match e.resolver s0.machine with
  | StepResult.codeEnd => (true, s0)
  | StepResult.next next_stop =>
    let s1 : QdbState :=
      if s0.rr then { s0 with states_list := s0.machine :: s0.states_list }
      else s0
    let count : Nat :=
      if e.archtype = QLArch.MIPS ∧ next_stop ≠ s1.machine.pc + 4 then 2 else 1
    (false, _run e s1 0 count)

/-- The state after a `do_step`, discarding the loop-stop flag. -/
def stepState (e : Emu) (s : QdbState) : QdbState :=
  (do_step e s).2

/-! ### Lemmas about the dict model -/

theorem find_map_replace (l : List (Nat × Breakpoint)) (k : Nat) (v : Breakpoint)
    (h : l.any (fun p => p.1 = k) = true) :
    (l.map (fun p => if p.1 = k then (k, v) else p)).find? (fun p => p.1 = k) =
      some (k, v) := by
  induction l with
  | nil => simp at h
  | cons p t ih =>
    by_cases hp : p.1 = k
    · rw [List.map_cons, if_pos hp]
      rw [List.find?_cons_of_pos _ (by simp)]
    · rw [List.map_cons, if_neg hp]
      rw [List.find?_cons_of_neg _ (by simp [hp])]
      apply ih
      simp only [List.any_cons, Bool.or_eq_true] at h
      rcases h with h | h
      · exact absurd (of_decide_eq_true h) hp
      · exact h

theorem find_none_of_any_false (l : List (Nat × Breakpoint)) (k : Nat)
    (h : l.any (fun p => p.1 = k) = false) :
    l.find? (fun p => decide (p.1 = k)) = none := by
  rw [List.find?_eq_none]
  intro x hx
  simp only [List.any_eq_false] at h
  simpa using h x hx

theorem dictGet_update_self (l : List (Nat × Breakpoint)) (k : Nat) (v : Breakpoint) :
    dictGet (dictUpdate l k v) k = some v := by
  unfold dictUpdate
  by_cases h : l.any (fun p => p.1 = k)
  · rw [if_pos h]
    unfold dictGet
    rw [find_map_replace l k v h]
    rfl
  · rw [if_neg h]
    unfold dictGet
    rw [List.find?_append]
    rw [find_none_of_any_false l k (Bool.eq_false_iff.mpr h)]
    simp

theorem dictGet_remove_self (l : List (Nat × Breakpoint)) (k : Nat) :
    dictGet (dictRemove l k) k = none := by
  unfold dictGet dictRemove
  rw [Option.map_eq_none']
  rw [List.find?_eq_none]
  intro x hx
  have := (List.mem_filter.mp hx).2
  simpa using this

theorem dictRemove_of_absent (l : List (Nat × Breakpoint)) (k : Nat)
    (h : dictGet l k = none) : dictRemove l k = l := by
  unfold dictGet at h
  rw [Option.map_eq_none'] at h
  rw [List.find?_eq_none] at h
  unfold dictRemove
  rw [List.filter_eq_self]
  intro p hp
  simpa using h p hp

theorem countKey_map_replace (l : List (Nat × Breakpoint)) (k : Nat) (v : Breakpoint) :
    countKey (l.map (fun p => if p.1 = k then (k, v) else p)) k = countKey l k := by
  induction l with
  | nil => rfl
  | cons p t ih =>
    by_cases hp : p.1 = k
    · simp only [countKey, List.map_cons, if_pos hp, List.filter_cons] at ih ⊢
      simp only [decide_eq_true_eq, hp]
      simp [ih]
    · simp only [countKey, List.map_cons, if_neg hp, List.filter_cons] at ih ⊢
      simp only [decide_eq_true_eq, hp]
      simpa using ih

theorem countKey_map_replace_other (l : List (Nat × Breakpoint)) (k b : Nat)
    (v : Breakpoint) (hb : b ≠ k) :
    countKey (l.map (fun p => if p.1 = k then (k, v) else p)) b = countKey l b := by
  induction l with
  | nil => rfl
  | cons p t ih =>
    by_cases hp : p.1 = k
    · have h1 : ¬ (k = b) := fun hkb => hb hkb.symm
      have h2 : ¬ (p.1 = b) := by rw [hp]; exact h1
      simp only [countKey, List.map_cons, if_pos hp, List.filter_cons] at ih ⊢
      simp only [decide_eq_true_eq, h1, h2, if_false]
      exact ih
    · simp only [countKey, List.map_cons, if_neg hp, List.filter_cons] at ih ⊢
      by_cases h2 : p.1 = b
      · simp only [decide_eq_true_eq, h2, if_true, List.length_cons]
        rw [ih]
      · simp only [decide_eq_true_eq, h2, if_false]
        exact ih

theorem countKey_eq_zero_of_any_false (l : List (Nat × Breakpoint)) (k : Nat)
    (h : l.any (fun p => p.1 = k) = false) : countKey l k = 0 := by
  unfold countKey
  rw [List.length_eq_zero, List.filter_eq_nil_iff]
  intro p hp
  simp only [List.any_eq_false] at h
  simpa using h p hp

theorem countKey_update_self (l : List (Nat × Breakpoint)) (k : Nat) (v : Breakpoint) :
    countKey (dictUpdate l k v) k = if countKey l k = 0 then 1 else countKey l k := by
  unfold dictUpdate
  by_cases h : l.any (fun p => p.1 = k)
  · rw [if_pos h, countKey_map_replace]
    have hpos : 0 < countKey l k := by
      rw [List.any_eq_true] at h
      obtain ⟨p, hp, hpk⟩ := h
      unfold countKey
      rw [List.length_pos]
      intro hnil
      have hmem : p ∈ List.filter (fun p => decide (p.1 = k)) l :=
        List.mem_filter.mpr ⟨hp, hpk⟩
      rw [hnil] at hmem
      simp at hmem
    have hne : countKey l k ≠ 0 := by omega
    rw [if_neg hne]
  · rw [if_neg h]
    have h0 := countKey_eq_zero_of_any_false l k (Bool.eq_false_iff.mpr h)
    unfold countKey at h0 ⊢
    rw [List.filter_append]
    simp [List.length_eq_zero.mp h0]

theorem countKey_update_other (l : List (Nat × Breakpoint)) (k b : Nat)
    (v : Breakpoint) (hb : b ≠ k) :
    countKey (dictUpdate l k v) b = countKey l b := by
  unfold dictUpdate
  by_cases h : l.any (fun p => p.1 = k)
  · rw [if_pos h, countKey_map_replace_other l k b v hb]
  · rw [if_neg h]
    unfold countKey
    rw [List.filter_append]
    have hkb : ¬ ((k, v).1 = b) := fun hk => hb hk.symm
    simp [hkb]

theorem or_one_mod_two (n : Nat) : (n ||| 1) % 2 = 1 := by
  have h := Nat.testBit_or n 1 0
  simp [Nat.testBit_zero] at h ⊢

/-! ### Lemmas about stepping and the snapshot stack -/

theorem stepState_rr (e : Emu) (s : QdbState) : (stepState e s).rr = s.rr := by
  unfold stepState do_step
  rcases hres : e.resolver s.machine with _ | a
  · simp [hres]
  · simp only [hres, _run]
    split <;> rfl

theorem stepState_push (e : Emu) (s : QdbState) (a : Nat)
    (hrr : s.rr = true) (hres : e.resolver s.machine = StepResult.next a) :
    (stepState e s).states_list = s.machine :: s.states_list := by
  unfold stepState do_step
  simp [hres, hrr, _run]

/-- The machines pushed on the snapshot stack by `n` completed steps from
`s`, most recent first (`savedList e n s = [m_(n-1), ..., m_1, m_0]` where
`m_i` is the machine before the `(i+1)`-th step). -/
def savedList (e : Emu) : Nat → QdbState → List Machine
  | 0, _ => []
  | n + 1, s => savedList e n (stepState e s) ++ [s.machine]

theorem savedList_length (e : Emu) (n : Nat) :
    ∀ s, (savedList e n s).length = n := by
  induction n with
  | zero => intro s; rfl
  | succ n ih => intro s; simp [savedList, ih]

theorem savedList_succ_eq (e : Emu) (n : Nat) :
    ∀ s, savedList e (n + 1) s =
      ((stepState e)^[n] s).machine :: savedList e n s := by
  induction n with
  | zero => intro s; simp [savedList]
  | succ n ih =>
    intro s
    calc savedList e (n + 2) s
        = savedList e (n + 1) (stepState e s) ++ [s.machine] := rfl
      _ = (((stepState e)^[n] (stepState e s)).machine ::
            savedList e n (stepState e s)) ++ [s.machine] := by rw [ih]
      _ = ((stepState e)^[n + 1] s).machine ::
            (savedList e n (stepState e s) ++ [s.machine]) := by
            rw [Function.iterate_succ_apply, List.cons_append]
      _ = ((stepState e)^[n + 1] s).machine :: savedList e (n + 1) s := rfl

theorem savedList_getD (e : Emu) (n : Nat) :
    ∀ s k d, k < n →
      (savedList e n s).getD k d = ((stepState e)^[n - 1 - k] s).machine := by
  induction n with
  | zero => intro s k d hk; omega
  | succ n ih =>
    intro s k d hk
    rw [savedList_succ_eq]
    cases k with
    | zero => simp
    | succ k =>
      have he : n + 1 - 1 - (k + 1) = n - 1 - k := by omega
      rw [he]
      simp only [List.getD_cons_succ]
      exact ih s k d (by omega)

theorem stepIter_states (e : Emu) (n : Nat) :
    ∀ s : QdbState, s.rr = true →
      (∀ i, i < n →
        e.resolver ((stepState e)^[i] s).machine ≠ StepResult.codeEnd) →
      ((stepState e)^[n] s).states_list = savedList e n s ++ s.states_list := by
  induction n with
  | zero => intro s _ _; rfl
  | succ n ih =>
    intro s hrr hc
    rw [Function.iterate_succ_apply]
    have h0 := hc 0 (by omega)
    simp only [Function.iterate_zero_apply] at h0
    obtain ⟨a, ha⟩ : ∃ a, e.resolver s.machine = StepResult.next a := by
      rcases hres : e.resolver s.machine with _ | a
      · exact absurd hres h0
      · exact ⟨a, rfl⟩
    have hpush := stepState_push e s a hrr ha
    have hrr1 : (stepState e s).rr = true := by rw [stepState_rr]; exact hrr
    have hc1 : ∀ i, i < n →
        e.resolver ((stepState e)^[i] (stepState e s)).machine ≠
          StepResult.codeEnd := by
      intro i hi
      have := hc (i + 1) (by omega)
      rwa [Function.iterate_succ_apply] at this
    rw [ih (stepState e s) hrr1 hc1, hpush]
    show savedList e n (stepState e s) ++ (s.machine :: s.states_list) =
         (savedList e n (stepState e s) ++ [s.machine]) ++ s.states_list
    simp

theorem do_backward_pop (T : QdbState) (m : Machine) (rest : List Machine)
    (hrr : T.rr = true) (hst : T.states_list = m :: rest) :
    do_backward T = { T with notices := T.notices ++ [Notice.stepBackward],
                             states_list := rest, machine := m } := by
  unfold do_backward
  rw [if_neg (by simp [hrr, hst])]
  rw [hst]

theorem getD_default_irrel (L : List Machine) (i : Nat) (d1 d2 : Machine)
    (h : i < L.length) : L.getD i d1 = L.getD i d2 := by
  rw [List.getD_eq_getElem?_getD, List.getD_eq_getElem?_getD,
    List.getElem?_eq_getElem h]
  rfl

theorem backIter_char (k : Nat) :
    ∀ T : QdbState, T.rr = true → k ≤ T.states_list.length →
      do_backward^[k] T =
        { T with
          notices := T.notices ++ List.replicate k Notice.stepBackward
          states_list := T.states_list.drop k
          machine := if k = 0 then T.machine
                     else T.states_list.getD (k - 1) T.machine } := by
  induction k with
  | zero =>
    intro T hrr _
    simp
  | succ k ih =>
    intro T hrr hlen
    rcases hst : T.states_list with _ | ⟨m, rest⟩
    · rw [hst] at hlen
      simp at hlen
    · have hlen' : k ≤ rest.length := by
        rw [hst] at hlen
        simp at hlen
        omega
      rw [Function.iterate_succ_apply, do_backward_pop T m rest hrr hst]
      have hIH := ih { T with notices := T.notices ++ [Notice.stepBackward],
                              states_list := rest, machine := m }
        (by simp [hrr]) (by simpa using hlen')
      rw [hIH]
      simp only [QdbState.mk.injEq, true_and, and_true]
      refine ⟨?_, ?_, ?_⟩
      · rw [List.drop_succ_cons]
      · rcases k with _ | j
        · simp
        · simp only [Nat.succ_ne_zero, if_false, Nat.add_sub_cancel,
            List.getD_cons_succ]
          exact getD_default_irrel rest j m T.machine (by omega)
      · simp [List.replicate_succ, List.append_assoc]

theorem stepIter_rr (e : Emu) (n : Nat) (s : QdbState) :
    ((stepState e)^[n] s).rr = s.rr := by
  induction n with
  | zero => rfl
  | succ n ih => rw [Function.iterate_succ_apply', stepState_rr, ih]

theorem do_backward_noHistory (t : QdbState)
    (h : t.rr = false ∨ t.states_list = []) :
    do_backward t = { t with notices := t.notices ++ [Notice.noHistory] } := by
  unfold do_backward
  rw [if_pos h]

/-- C1: with reverse mode enabled, N completed `step()` calls leave exactly N
snapshots on the Snapshot Store (one pushed before each executed step); N
`reverseStep()` calls pop and restore them most-recent-first, ending with the
store empty and the machine back at the initial state; and a `reverseStep()`
on an empty store or with reverse mode disabled only reports the no-history
notice and changes nothing else. -/
theorem c1_snapshot_stack_discipline (e : Emu) (s : QdbState) (n : Nat)
    (hrr : s.rr = true) (hempty : s.states_list = [])
    (hcomplete : ∀ i, i < n →
      e.resolver ((stepState e)^[i] s).machine ≠ StepResult.codeEnd) :
    ((stepState e)^[n] s).states_list = savedList e n s
    ∧ (savedList e n s).length = n
    ∧ (∀ k, k ≤ n →
        (do_backward^[k] ((stepState e)^[n] s)).states_list =
          (savedList e n s).drop k)
    ∧ (∀ k, k < n →
        (do_backward^[k + 1] ((stepState e)^[n] s)).machine =
          ((stepState e)^[n - 1 - k] s).machine)
    ∧ (do_backward^[n] ((stepState e)^[n] s)).states_list = []
    ∧ (do_backward^[n] ((stepState e)^[n] s)).machine = s.machine
    ∧ (∀ t : QdbState, t.rr = false ∨ t.states_list = [] →
        do_backward t = { t with notices := t.notices ++ [Notice.noHistory] }) := by
  have hT : ((stepState e)^[n] s).states_list = savedList e n s := by
    rw [stepIter_states e n s hrr hcomplete, hempty, List.append_nil]
  have hTrr : ((stepState e)^[n] s).rr = true := by
    rw [stepIter_rr]; exact hrr
  have hlen := savedList_length e n s
  have hdrop : ∀ k, k ≤ n →
      (do_backward^[k] ((stepState e)^[n] s)).states_list =
        (savedList e n s).drop k := by
    intro k hk
    rw [backIter_char k _ hTrr (by rw [hT, hlen]; exact hk)]
    simp only [hT]
  have hmach : ∀ k, k < n →
      (do_backward^[k + 1] ((stepState e)^[n] s)).machine =
        ((stepState e)^[n - 1 - k] s).machine := by
    intro k hk
    rw [backIter_char (k + 1) _ hTrr (by rw [hT, hlen]; omega)]
    simp only [Nat.succ_ne_zero, if_false, Nat.add_sub_cancel, hT]
    exact savedList_getD e n s k _ hk
  refine ⟨hT, hlen, hdrop, hmach, ?_, ?_, ?_⟩
  · rw [hdrop n (Nat.le_refl n)]
    exact List.drop_eq_nil_of_le (by rw [hlen])
  · rcases n with _ | j
    · rfl
    · have := hmach j (by omega)
      have he : j + 1 - 1 - j = 0 := by omega
      rw [he] at this
      exact this
  · intro t ht
    exact do_backward_noHistory t ht

/-- Concrete emulator used by the witnesses: a MIPS machine whose resolver
always reports the sequential next stop. -/
def wEmu : Emu :=
  { archtype := QLArch.MIPS
    execOne := fun m => { m with pc := m.pc + 4, mem := m.mem + 1 }
    runFree := fun m => { m with mem := m.mem + 100 }
    resolver := fun m => StepResult.next (m.pc + 4)
    isThumb := fun _ => false
    regDump := fun m => m.mem }

/-- Concrete session state used by the witnesses: reverse mode on, empty
snapshot stack, no breakpoints. -/
def wState : QdbState :=
  { bp_list := [], rr := true, states_list := [],
    machine := { pc := 4096, cpsr := 0, mem := 0 },
    saved_reg_dump := none, run_calls := 0, hook_removals := 0,
    next_hook := 0, notices := [] }

/-- Witness for C1 at `n = 2`. -/
theorem c1_snapshot_stack_discipline_witness :
    wState.rr = true ∧ wState.states_list = []
    ∧ (∀ i, i < 2 →
        wEmu.resolver ((stepState wEmu)^[i] wState).machine ≠
          StepResult.codeEnd)
    ∧ (((stepState wEmu)^[2] wState).states_list = savedList wEmu 2 wState
    ∧ (savedList wEmu 2 wState).length = 2
    ∧ (∀ k, k ≤ 2 →
        (do_backward^[k] ((stepState wEmu)^[2] wState)).states_list =
          (savedList wEmu 2 wState).drop k)
    ∧ (∀ k, k < 2 →
        (do_backward^[k + 1] ((stepState wEmu)^[2] wState)).machine =
          ((stepState wEmu)^[2 - 1 - k] wState).machine)
    ∧ (do_backward^[2] ((stepState wEmu)^[2] wState)).states_list = []
    ∧ (do_backward^[2] ((stepState wEmu)^[2] wState)).machine = wState.machine
    ∧ (∀ t : QdbState, t.rr = false ∨ t.states_list = [] →
        do_backward t = { t with notices := t.notices ++ [Notice.noHistory] })) :=
  ⟨rfl, rfl, by decide,
    c1_snapshot_stack_discipline wEmu wState 2 rfl rfl (by decide)⟩

theorem bp_handler_noop_hitted (t : QdbState) (b : Breakpoint)
    (hg : dictGet t.bp_list t.machine.pc = some b)
    (ht : b.isTemp = false) (hh : b.hitted = true) :
    _bp_handler t = t := by
  unfold _bp_handler
  rw [hg]
  simp [ht, hh]

theorem bp_handler_noop_absent (t : QdbState)
    (hg : dictGet t.bp_list t.machine.pc = none) :
    _bp_handler t = t := by
  unfold _bp_handler
  rw [hg]

/-- C2: a Persistent breakpoint whose handler fires with `hitted = false` is
reported exactly once and marked `hitted`; re-entering the handler at the
same address without intervening execution is a no-op, so the notification
list still holds a single hit after a second invocation. -/
theorem c2_persistent_no_duplicate (s : QdbState) (bp : Breakpoint)
    (hget : dictGet s.bp_list s.machine.pc = some bp)
    (htemp : bp.isTemp = false) :
    (bp.hitted = true → _bp_handler s = s)
    ∧ (bp.hitted = false →
        (_bp_handler s).notices =
          s.notices ++ [Notice.hitBreakpoint s.machine.pc]
        ∧ dictGet (_bp_handler s).bp_list s.machine.pc =
            some { bp with hitted := true }
        ∧ _bp_handler (_bp_handler s) = _bp_handler s
        ∧ (_bp_handler (_bp_handler s)).notices =
            s.notices ++ [Notice.hitBreakpoint s.machine.pc]) := by
  constructor
  · intro hhit
    exact bp_handler_noop_hitted s bp hget htemp hhit
  · intro hhit
    have hs1 : _bp_handler s =
        { s with
          notices := s.notices ++ [Notice.hitBreakpoint s.machine.pc]
          bp_list := dictUpdate s.bp_list s.machine.pc
            { bp with hitted := true } } := by
      unfold _bp_handler
      rw [hget]
      simp [htemp, hhit]
    have hget2 : dictGet (_bp_handler s).bp_list (_bp_handler s).machine.pc =
        some { bp with hitted := true } := by
      rw [hs1]
      exact dictGet_update_self s.bp_list s.machine.pc { bp with hitted := true }
    have hnoop : _bp_handler (_bp_handler s) = _bp_handler s :=
      bp_handler_noop_hitted (_bp_handler s) { bp with hitted := true } hget2
        htemp rfl
    refine ⟨by rw [hs1], ?_, hnoop, ?_⟩
    · rw [hs1]
      exact dictGet_update_self s.bp_list s.machine.pc { bp with hitted := true }
    · rw [hnoop, hs1]

/-- C3: a OneShot (`TempBreakpoint`) is deleted the first time the handler
fires on it, the table then has no entry at that address, no hit
notification is printed, and a handler invocation with no table entry at
the current address is a no-op. -/
theorem c3_oneshot_auto_removal (s : QdbState) (bp : Breakpoint)
    (hget : dictGet s.bp_list s.machine.pc = some bp)
    (htemp : bp.isTemp = true)
    (haddr : bp.addr = s.machine.pc) :
    _bp_handler s = del_breakpoint s bp
    ∧ dictGet (_bp_handler s).bp_list s.machine.pc = none
    ∧ (_bp_handler s).notices = s.notices
    ∧ (∀ t : QdbState, dictGet t.bp_list t.machine.pc = none →
        _bp_handler t = t) := by
  have h1 : _bp_handler s = del_breakpoint s bp := by
    unfold _bp_handler
    rw [hget]
    simp [htemp]
  refine ⟨h1, ?_, ?_, ?_⟩
  · rw [h1]
    show dictGet (dictRemove s.bp_list bp.addr) s.machine.pc = none
    rw [haddr]
    exact dictGet_remove_self s.bp_list s.machine.pc
  · rw [h1]
    rfl
  · intro t hg
    exact bp_handler_noop_absent t hg

/-- C4: `set_breakpoint` keeps at most one table entry per address; setting
the same address twice leaves exactly one entry holding the most recently
constructed breakpoint (last write wins, with the fresh hook handle). -/
theorem c4_breakpoint_uniqueness (s : QdbState) (a : Nat) (tmp1 tmp2 : Bool)
    (hinv : ∀ b, countKey s.bp_list b ≤ 1) :
    (∀ (x : Nat) (tmp : Bool) (t : QdbState),
      (∀ b, countKey t.bp_list b ≤ 1) →
      ∀ b, countKey (set_breakpoint t x tmp).bp_list b ≤ 1)
    ∧ countKey (set_breakpoint (set_breakpoint s a tmp1) a tmp2).bp_list a = 1
    ∧ dictGet (set_breakpoint (set_breakpoint s a tmp1) a tmp2).bp_list a =
        some { addr := a, isTemp := tmp2, hitted := false,
               hook := s.next_hook + 1 } := by
  refine ⟨?_, ?_, ?_⟩
  · intro x tmp t ht b
    show countKey (dictUpdate t.bp_list x _) b ≤ 1
    by_cases hb : b = x
    · subst hb
      rw [countKey_update_self]
      have := ht b
      split <;> omega
    · rw [countKey_update_other _ _ _ _ hb]
      exact ht b
  · show countKey (dictUpdate (dictUpdate s.bp_list a _) a _) a = 1
    rw [countKey_update_self, countKey_update_self]
    rcases Nat.le_one_iff_eq_zero_or_eq_one.mp (hinv a) with h | h <;> simp [h]
  · show dictGet (dictUpdate (dictUpdate s.bp_list a _) a _) a = _
    exact dictGet_update_self _ _ _

/-- C5: when the step resolver reports `CODE_END`, `do_step` signals loop
termination (`true`), issues no `emu_start` call, pushes no snapshot and
leaves the machine untouched (only the register dump is saved). -/
theorem c5_terminal_no_run (e : Emu) (s : QdbState)
    (hres : e.resolver s.machine = StepResult.codeEnd) :
    do_step e s =
      (true, { s with saved_reg_dump := some (e.regDump s.machine) })
    ∧ (stepState e s).machine = s.machine
    ∧ (stepState e s).states_list = s.states_list
    ∧ (stepState e s).run_calls = s.run_calls := by
  have h : do_step e s =
      (true, { s with saved_reg_dump := some (e.regDump s.machine) }) := by
    unfold do_step
    dsimp only
    rw [hres]
  refine ⟨h, ?_, ?_, ?_⟩
  · show (do_step e s).2.machine = s.machine
    rw [h]
  · show (do_step e s).2.states_list = s.states_list
    rw [h]
  · show (do_step e s).2.run_calls = s.run_calls
    rw [h]

theorem run_address_mips (e : Emu) (s : QdbState)
    (h : e.archtype = QLArch.MIPS) :
    run_address e s 0 = s.machine.pc := by
  simp [run_address, h]

theorem stepState_machine (e : Emu) (s : QdbState) (a : Nat)
    (hres : e.resolver s.machine = StepResult.next a) :
    (stepState e s).machine =
      emu_start e s.machine (run_address e s 0)
        (if e.archtype = QLArch.MIPS ∧ a ≠ s.machine.pc + 4 then 2 else 1) := by
  unfold stepState do_step
  dsimp only
  rw [hres]
  by_cases hrr : s.rr = true <;>
    simp [hrr, _run, run_address, emu_start]

/-- C6: a `do_step` executes exactly 2 instructions on MIPS when the
resolver's next stop is not the sequential address (delay slot after a
taken branch), exactly 1 on MIPS for a sequential next stop, and exactly 1
on every other architecture. -/
theorem c6_delay_slot_count (e : Emu) (s : QdbState) (a : Nat)
    (hres : e.resolver s.machine = StepResult.next a) :
    (e.archtype = QLArch.MIPS → a ≠ s.machine.pc + 4 →
      (stepState e s).machine = e.execOne^[2] s.machine)
    ∧ (e.archtype = QLArch.MIPS → a = s.machine.pc + 4 →
      (stepState e s).machine = e.execOne^[1] s.machine)
    ∧ (e.archtype ≠ QLArch.MIPS →
      (stepState e s).machine =
        e.execOne^[1] { s.machine with pc := run_address e s 0 }) := by
  have hm := stepState_machine e s a hres
  refine ⟨?_, ?_, ?_⟩
  · intro harch hne
    rw [hm, if_pos ⟨harch, hne⟩, run_address_mips e s harch]
    show e.execOne^[2] { s.machine with pc := s.machine.pc } = _
    rfl
  · intro harch heq
    rw [hm, if_neg (by simp [heq]), run_address_mips e s harch]
    show e.execOne^[1] { s.machine with pc := s.machine.pc } = _
    rfl
  · intro harch
    rw [hm, if_neg (by simp [harch])]
    rfl

/-- C7: deleting a breakpoint whose address has no table entry releases no
hook, raises nothing and leaves the state completely unchanged. -/
theorem c7_delete_idempotent (s : QdbState) (bp : Breakpoint)
    (habs : dictGet s.bp_list bp.addr = none) :
    del_breakpoint s bp = s := by
  unfold del_breakpoint
  rw [habs, dictRemove_of_absent s.bp_list bp.addr habs]
  simp

/-- C8: on ARM/ARM_THUMB with thumb mode active, the start address handed
to `emu_start` by `_run` has its low bit forced to 1. -/
theorem c8_thumb_address_tag (e : Emu) (s : QdbState) (address count : Nat)
    (harch : e.archtype = QLArch.ARM ∨ e.archtype = QLArch.ARM_THUMB)
    (hthumb : e.isThumb s.machine.cpsr = true) :
    run_address e s address =
      (if address = 0 then s.machine.pc else address) ||| 1
    ∧ run_address e s address % 2 = 1
    ∧ (_run e s address count).machine =
        emu_start e s.machine (run_address e s address) count := by
  have h1 : run_address e s address =
      (if address = 0 then s.machine.pc else address) ||| 1 := by
    unfold run_address
    rw [if_pos ⟨harch, hthumb⟩]
  refine ⟨h1, ?_, rfl⟩
  rw [h1]
  exact or_one_mod_two _

/-- C9: `_run` treats a start address of 0 as absent and substitutes the
current pc, so `do_continue` with parsed address 0 behaves exactly like
`do_continue` with no address: execution resumes from the current address,
never from address 0. -/
theorem c9_continue_zero_is_current (e : Emu) (s : QdbState) :
    do_continue e s (some 0) = do_continue e s none
    ∧ run_address e s 0 = run_address e s s.machine.pc
    ∧ (do_continue e s (some 0)).machine =
        emu_start e s.machine (run_address e s 0) 0 := by
  refine ⟨rfl, ?_, rfl⟩
  unfold run_address
  by_cases h : s.machine.pc = 0 <;> simp [h]

/-- C10: only `do_step` pushes snapshots: `do_run` and `do_continue` never
touch the snapshot stack, so a `do_backward` issued after a
`do_continue` restores the machine captured before the most recent step,
not the state the continue started from. -/
theorem c10_only_step_pushes (e : Emu) (s : QdbState) (a : Nat)
    (addr : Option Nat)
    (hrr : s.rr = true) (hres : e.resolver s.machine = StepResult.next a) :
    (∀ (t : QdbState) (ad : Option Nat),
        (do_continue e t ad).states_list = t.states_list)
    ∧ (∀ t : QdbState, (do_run e t).states_list = t.states_list)
    ∧ (do_backward (do_continue e (stepState e s) addr)).machine = s.machine
    ∧ (do_backward (do_continue e (stepState e s) addr)).states_list =
        s.states_list := by
  have hcont : ∀ (t : QdbState) (ad : Option Nat),
      (do_continue e t ad).states_list = t.states_list := fun t ad => rfl
  have hpush := stepState_push e s a hrr hres
  have hrr2 : (do_continue e (stepState e s) addr).rr = true := by
    show (stepState e s).rr = true
    rw [stepState_rr]
    exact hrr
  have hst2 : (do_continue e (stepState e s) addr).states_list =
      s.machine :: s.states_list := by
    rw [hcont, hpush]
  rw [do_backward_pop _ _ _ hrr2 hst2]
  exact ⟨hcont, fun t => rfl, rfl, rfl⟩

/-- Persistent breakpoint at the witness machine's pc. -/
def wBp : Breakpoint :=
  { addr := 4096, isTemp := false, hitted := false, hook := 0 }

/-- OneShot breakpoint at the witness machine's pc. -/
def wBpTemp : Breakpoint :=
  { addr := 4096, isTemp := true, hitted := false, hook := 0 }

/-- Witness session with the persistent breakpoint installed. -/
def wStateBp : QdbState := { wState with bp_list := [(4096, wBp)] }

/-- Witness session with the OneShot breakpoint installed. -/
def wStateTemp : QdbState := { wState with bp_list := [(4096, wBpTemp)] }

/-- Witness emulator whose resolver reports end of mapped code. -/
def wEmuEnd : Emu :=
  { wEmu with archtype := QLArch.OTHER, resolver := fun _ => StepResult.codeEnd }

/-- Witness emulator on MIPS whose resolver reports a taken branch (next
stop two instructions ahead). -/
def wEmuBranch : Emu :=
  { wEmu with resolver := fun m => StepResult.next (m.pc + 8) }

/-- Witness emulator on ARM with thumb mode governed by the low cpsr bit. -/
def wEmuArm : Emu :=
  { wEmu with archtype := QLArch.ARM, isThumb := fun c => c % 2 = 1 }

/-- Witness session whose cpsr has thumb mode active. -/
def wStateArm : QdbState :=
  { wState with machine := { pc := 4096, cpsr := 1, mem := 0 } }

/-- Witness for C2. -/
theorem c2_persistent_no_duplicate_witness :
    dictGet wStateBp.bp_list wStateBp.machine.pc = some wBp
    ∧ wBp.isTemp = false
    ∧ ((wBp.hitted = true → _bp_handler wStateBp = wStateBp)
    ∧ (wBp.hitted = false →
        (_bp_handler wStateBp).notices =
          wStateBp.notices ++ [Notice.hitBreakpoint wStateBp.machine.pc]
        ∧ dictGet (_bp_handler wStateBp).bp_list wStateBp.machine.pc =
            some { wBp with hitted := true }
        ∧ _bp_handler (_bp_handler wStateBp) = _bp_handler wStateBp
        ∧ (_bp_handler (_bp_handler wStateBp)).notices =
            wStateBp.notices ++ [Notice.hitBreakpoint wStateBp.machine.pc])) :=
  ⟨by decide, rfl, c2_persistent_no_duplicate wStateBp wBp (by decide) rfl⟩

/-- Witness for C3. -/
theorem c3_oneshot_auto_removal_witness :
    dictGet wStateTemp.bp_list wStateTemp.machine.pc = some wBpTemp
    ∧ wBpTemp.isTemp = true
    ∧ wBpTemp.addr = wStateTemp.machine.pc
    ∧ (_bp_handler wStateTemp = del_breakpoint wStateTemp wBpTemp
    ∧ dictGet (_bp_handler wStateTemp).bp_list wStateTemp.machine.pc = none
    ∧ (_bp_handler wStateTemp).notices = wStateTemp.notices
    ∧ (∀ t : QdbState, dictGet t.bp_list t.machine.pc = none →
        _bp_handler t = t)) :=
  ⟨by decide, rfl, rfl,
    c3_oneshot_auto_removal wStateTemp wBpTemp (by decide) rfl rfl⟩

/-- Witness for C4. -/
theorem c4_breakpoint_uniqueness_witness :
    (∀ b, countKey wState.bp_list b ≤ 1)
    ∧ ((∀ (x : Nat) (tmp : Bool) (t : QdbState),
        (∀ b, countKey t.bp_list b ≤ 1) →
        ∀ b, countKey (set_breakpoint t x tmp).bp_list b ≤ 1)
    ∧ countKey
        (set_breakpoint (set_breakpoint wState 4096 false) 4096 false).bp_list
        4096 = 1
    ∧ dictGet
        (set_breakpoint (set_breakpoint wState 4096 false) 4096 false).bp_list
        4096 =
        some { addr := 4096, isTemp := false, hitted := false,
               hook := wState.next_hook + 1 }) :=
  ⟨fun b => by simp [wState, countKey],
    c4_breakpoint_uniqueness wState 4096 false false
      (fun b => by simp [wState, countKey])⟩

/-- Witness for C5. -/
theorem c5_terminal_no_run_witness :
    wEmuEnd.resolver wState.machine = StepResult.codeEnd
    ∧ (do_step wEmuEnd wState =
        (true, { wState with
                 saved_reg_dump := some (wEmuEnd.regDump wState.machine) })
    ∧ (stepState wEmuEnd wState).machine = wState.machine
    ∧ (stepState wEmuEnd wState).states_list = wState.states_list
    ∧ (stepState wEmuEnd wState).run_calls = wState.run_calls) :=
  ⟨rfl, c5_terminal_no_run wEmuEnd wState rfl⟩

/-- Witness for C6. -/
theorem c6_delay_slot_count_witness :
    wEmuBranch.resolver wState.machine = StepResult.next 4104
    ∧ ((wEmuBranch.archtype = QLArch.MIPS → 4104 ≠ wState.machine.pc + 4 →
        (stepState wEmuBranch wState).machine =
          wEmuBranch.execOne^[2] wState.machine)
    ∧ (wEmuBranch.archtype = QLArch.MIPS → 4104 = wState.machine.pc + 4 →
        (stepState wEmuBranch wState).machine =
          wEmuBranch.execOne^[1] wState.machine)
    ∧ (wEmuBranch.archtype ≠ QLArch.MIPS →
        (stepState wEmuBranch wState).machine =
          wEmuBranch.execOne^[1]
            { wState.machine with pc := run_address wEmuBranch wState 0 })) :=
  ⟨rfl, c6_delay_slot_count wEmuBranch wState 4104 rfl⟩

/-- Witness for C7. -/
theorem c7_delete_idempotent_witness :
    dictGet wState.bp_list wBp.addr = none
    ∧ del_breakpoint wState wBp = wState :=
  ⟨rfl, c7_delete_idempotent wState wBp rfl⟩

/-- Witness for C8. -/
theorem c8_thumb_address_tag_witness :
    (wEmuArm.archtype = QLArch.ARM ∨ wEmuArm.archtype = QLArch.ARM_THUMB)
    ∧ wEmuArm.isThumb wStateArm.machine.cpsr = true
    ∧ (run_address wEmuArm wStateArm 0 =
        (if (0 : Nat) = 0 then wStateArm.machine.pc else 0) ||| 1
    ∧ run_address wEmuArm wStateArm 0 % 2 = 1
    ∧ (_run wEmuArm wStateArm 0 0).machine =
        emu_start wEmuArm wStateArm.machine (run_address wEmuArm wStateArm 0) 0) :=
  ⟨Or.inl rfl, rfl,
    c8_thumb_address_tag wEmuArm wStateArm 0 0 (Or.inl rfl) rfl⟩

/-- Witness for C10. -/
theorem c10_only_step_pushes_witness :
    wState.rr = true
    ∧ wEmu.resolver wState.machine = StepResult.next 4100
    ∧ ((∀ (t : QdbState) (ad : Option Nat),
        (do_continue wEmu t ad).states_list = t.states_list)
    ∧ (∀ t : QdbState, (do_run wEmu t).states_list = t.states_list)
    ∧ (do_backward (do_continue wEmu (stepState wEmu wState) none)).machine =
        wState.machine
    ∧ (do_backward (do_continue wEmu (stepState wEmu wState) none)).states_list =
        wState.states_list) :=
  ⟨rfl, rfl, c10_only_step_pushes wEmu wState 4100 none rfl rfl⟩
